import Mathlib

/-!
# Verification of `deduplicate.py` (pagy-blocker-beta)

Shallow embedding of the single-file program `src/deduplicate.py`:

```python
def deduplicate_file(input_path, output_path):
    if not os.path.exists(input_path):
        print(f"Fehler: Eingabedatei nicht gefunden unter {input_path}")
        return
    try:
        with open(input_path, 'r', encoding='utf-8') as f_in:
            lines = (line.strip() for line in f_in)
            unique_lines = {line for line in lines if line}
        sorted_lines = sorted(list(unique_lines))
        with open(output_path, 'w', encoding='utf-8') as f_out:
            for line in sorted_lines:
                f_out.write(line + '\n')
        print(f"... {len(sorted_lines)} ...")
    except IOError as e: print(...)
    except Exception as e: print(...)

if __name__ == '__main__':
    if len(sys.argv) != 3:
        print("Verwendung: python deduplicate.py <eingabedatei> <ausgabedatei>")
        sys.exit(1)
    deduplicate_file(sys.argv[1], sys.argv[2])
```

Text is modelled as `List Char` (Unicode code points, as in Python 3 strings).
Files are modelled as an association list from paths to contents; `print`
output is modelled as an abstract message value, and the `IOError` /
`Exception` handlers are modelled by an optional injected fault.
-/

/-- A Python 3 string: a sequence of Unicode code points. -/
abbrev Line := List Char

/-- A file-system path (`input_path` / `output_path` are plain strings). -/
abbrev FsPath := List Char

/-- CPython's `str.isspace` / no-argument `str.strip` whitespace predicate:
a code point is stripped iff it is ASCII whitespace `0x09`–`0x0D`, `0x1C`–`0x1F`,
`0x20`, or a Unicode whitespace code point (`0x85` NEL, `0xA0` NBSP, `0x1680`,
`0x2000`–`0x200A`, `0x2028`, `0x2029`, `0x202F`, `0x205F`, `0x3000`), per the
`Py_UNICODE_ISSPACE` table used by `str.strip()` with no argument. -/
def pyIsSpace (c : Char) : Bool :=
  (0x09 ≤ c.toNat && c.toNat ≤ 0x0D) || c.toNat == 0x20 ||
  (0x1C ≤ c.toNat && c.toNat ≤ 0x1F) || c.toNat == 0x85 || c.toNat == 0xA0 ||
  c.toNat == 0x1680 || (0x2000 ≤ c.toNat && c.toNat ≤ 0x200A) ||
  c.toNat == 0x2028 || c.toNat == 0x2029 || c.toNat == 0x202F ||
  c.toNat == 0x205F || c.toNat == 0x3000

/-- Python `str.lstrip()`: drop the maximal run of leading whitespace. -/
def lstrip (s : Line) : Line := s.dropWhile pyIsSpace

/-- Python `str.rstrip()`: drop the maximal run of trailing whitespace. -/
def rstrip (s : Line) : Line := (lstrip s.reverse).reverse

/-- Python `line.strip()` (line 28 of the source): both ends stripped. -/
def pyStrip (s : Line) : Line := rstrip (lstrip s)

/-- Universal-newline translation performed by `open(input_path, 'r')` in text
mode: `"\r\n"` and a lone `"\r"` both become `"\n"` before lines are formed. -/
def translateNewlines : Line → Line
  | [] => []
  | [c] => if c = '\r' then ['\n'] else [c]
  | c :: d :: cs =>
    if c = '\r' then
      if d = '\n' then '\n' :: translateNewlines cs
      else '\n' :: translateNewlines (d :: cs)
    else c :: translateNewlines (d :: cs)

/-- The records produced by iterating over the open file (`for line in f_in`),
after newline translation. Python yields each line with its trailing `'\n'`
terminator; since `line.strip()` removes that terminator together with the rest
of the surrounding whitespace (`pyStrip_append_newline` below), records are
modelled without the terminator: the maximal `'\n'`-free segments, with a final
unterminated segment kept and no phantom record after a final `'\n'`. -/
def splitRecords : Line → List Line
  | [] => []
  | c :: cs =>
    if c = '\n' then [] :: splitRecords cs
    else
      match splitRecords cs with
      | [] => [[c]]
      | l :: ls => (c :: l) :: ls

/-- Python 3 string comparison `a <= b` as used by `sorted`: lexicographic on
the sequences of code points, a strict prefix ordering below its extensions. -/
def pyLe : Line → Line → Bool
  | [], _ => true
  | _ :: _, [] => false
  | a :: as, b :: bs =>
    if a.toNat < b.toNat then true
    else if b.toNat < a.toNat then false
    else pyLe as bs

/-- The ordering of `sorted` as a relation. -/
def pyLeProp (a b : Line) : Prop := pyLe a b = true

instance : DecidableRel pyLeProp :=
  fun a b => inferInstanceAs (Decidable (pyLe a b = true))

/-- Line 28–29 of the source: strip every record, keep the non-empty results
(`if line` on a string tests non-emptiness), and collapse duplicates (the set
comprehension `{line for line in lines if line}`); the set is modelled as a
duplicate-free list, which is sorted immediately afterwards, so which
occurrence survives is irrelevant. -/
def unique_lines (records : List Line) : List Line :=
  ((records.map pyStrip).filter (fun l => !l.isEmpty)).dedup

/-- Line 32 of the source: `sorted(list(unique_lines))`. -/
def sorted_lines (l : List Line) : List Line := List.insertionSort pyLeProp l

/-- The pure read-and-transform pipeline applied to a list of records. -/
def processRecords (records : List Line) : List Line :=
  sorted_lines (unique_lines records)

/-- The pure transform applied to raw file content. -/
def processContent (content : Line) : List Line :=
  processRecords (splitRecords (translateNewlines content))

/-- Lines 35–36 of the source: write each sorted line followed by a single
`'\n'`. -/
def renderLines (ls : List Line) : Line := (ls.map (fun l => l ++ ['\n'])).flatten

/-- The file system: an association list from paths to file contents; a write
shadows earlier entries for the same path. -/
abbrev FileSys := List (FsPath × Line)

/-- Reading a path: the content of its first (most recent) entry. -/
def readFile : FileSys → FsPath → Option Line
  | [], _ => none
  | (q, c) :: fs, p => if q = p then some c else readFile fs p

/-- `open(output_path, 'w')` plus the writes: overwrite with new content. -/
def writeFile (fs : FileSys) (p : FsPath) (c : Line) : FileSys := (p, c) :: fs

/-- A fault raised inside the `try` block, caught by the source's
`except IOError` / `except Exception` handlers. -/
inductive Fault
  | ioFault (detail : Line)
  | unexpectedFault (detail : Line)

/-- The one user-visible message a run prints. -/
inductive Msg
  | notFound (path : FsPath)
  | ioError (detail : Line)
  | unexpectedError (detail : Line)
  | success (count : Nat) (path : FsPath)
  | usage
deriving DecidableEq

/-- `deduplicate_file(input_path, output_path)` (lines 11–43 of the source):
if the input path does not exist, report `Msg.notFound` naming it and return
with the file system untouched; otherwise, unless an injected fault fires and
is caught (reported, file system untouched, no raise), strip / filter / dedup /
sort the input's records and overwrite the output path with the rendered
result, reporting the count of lines written and the output path. -/
def deduplicate_file (fault : Option Fault) (fs : FileSys)
    (input_path output_path : FsPath) : FileSys × Msg :=
  match readFile fs input_path with
  | none => (fs, Msg.notFound input_path)
  | some content =>
    match fault with
    | some (Fault.ioFault d) => (fs, Msg.ioError d)
    | some (Fault.unexpectedFault d) => (fs, Msg.unexpectedError d)
    | none =>
      let out := processContent content
      (writeFile fs output_path (renderLines out), Msg.success out.length output_path)

/-- The `__main__` block (lines 46–54): with exactly three `sys.argv` entries
(program name plus two paths) it runs `deduplicate_file` and the process ends
with exit code 0 — every runtime error is handled inside `deduplicate_file`;
with any other argument count it prints the usage message and exits with
code 1 via `sys.exit(1)`. Result: final file system, printed message, exit
code. -/
def python_main (fault : Option Fault) (fs : FileSys) (argv : List FsPath) :
    FileSys × Msg × Nat :=
  match argv with
  | [_, input_file, output_file] =>
    let r := deduplicate_file fault fs input_file output_file
    (r.1, r.2, 0)
  | _ => (fs, Msg.usage, 1)

/-- `true` iff two consecutive `'\n'` occur: a blank line in rendered output. -/
def hasDoubleNewline : Line → Bool
  | a :: b :: r => (a = '\n' && b = '\n') || hasDoubleNewline (b :: r)
  | _ => false

example : pyStrip "  a  ".toList = ['a'] := by decide
example : splitRecords "b\na\nb\n\n  a  \nc\n".toList =
    [['b'], ['a'], ['b'], [], "  a  ".toList, ['c']] := by decide
example : processContent "b\na\nb\n\n  a  \nc\n".toList = [['a'], ['b'], ['c']] := by
  decide
example : renderLines (processContent "b\na\nb\n\n  a  \nc\n".toList) =
    "a\nb\nc\n".toList := by decide
example : pyStrip [Char.ofNat 0xA0, 'a'] = ['a'] := by decide
example : translateNewlines "a\r\nb\rc".toList = "a\nb\nc".toList := by decide
example : processContent "   \n\t\n".toList = [] := by decide

/-- Code points determine characters. -/
theorem charToNat_inj {a b : Char} (h : a.toNat = b.toNat) : a = b := by
  apply Char.ext
  apply UInt32.ext
  simpa [Char.toNat] using h

/-- `pyLe` is reflexive. -/
theorem pyLe_refl (a : Line) : pyLe a a = true := by
  induction a with
  | nil => rfl
  | cons c cs ih => simp [pyLe, ih]

/-- `pyLe` is total. -/
theorem pyLe_total (a b : Line) : pyLe a b = true ∨ pyLe b a = true := by
  induction a generalizing b with
  | nil => left; rfl
  | cons c cs ih =>
    cases b with
    | nil => right; rfl
    | cons d ds =>
      rcases Nat.lt_trichotomy c.toNat d.toNat with h | h | h
      · left; simp [pyLe, h]
      · rcases ih ds with h2 | h2
        · left; simp [pyLe, h, h2]
        · right; simp [pyLe, h.symm, h2]
      · right; simp [pyLe, h]

/-- `pyLe` is antisymmetric. -/
theorem pyLe_antisymm {a b : Line} (h1 : pyLe a b = true) (h2 : pyLe b a = true) :
    a = b := by
  induction a generalizing b with
  | nil =>
    cases b with
    | nil => rfl
    | cons d ds => simp [pyLe] at h2
  | cons c cs ih =>
    cases b with
    | nil => simp [pyLe] at h1
    | cons d ds =>
      rcases Nat.lt_trichotomy c.toNat d.toNat with h | h | h
      · simp [pyLe, h, Nat.lt_asymm h] at h2
      · have hc : c = d := charToNat_inj h
        subst hc
        simp only [pyLe, Nat.lt_irrefl, if_false] at h1 h2
        exact congrArg (c :: ·) (ih h1 h2)
      · simp [pyLe, h, Nat.lt_asymm h] at h1

/-- `pyLe` is transitive. -/
theorem pyLe_trans {a b c : Line} (h1 : pyLe a b = true) (h2 : pyLe b c = true) :
    pyLe a c = true := by
  induction a generalizing b c with
  | nil => rfl
  | cons x xs ih =>
    cases b with
    | nil => simp [pyLe] at h1
    | cons y ys =>
      cases c with
      | nil => simp [pyLe] at h2
      | cons z zs =>
        rcases Nat.lt_trichotomy x.toNat y.toNat with hxy | hxy | hxy
        · rcases Nat.lt_trichotomy y.toNat z.toNat with hyz | hyz | hyz
          · simp [pyLe, Nat.lt_trans hxy hyz]
          · simp [pyLe, hyz ▸ hxy]
          · simp [pyLe, hyz, Nat.lt_asymm hyz] at h2
        · rcases Nat.lt_trichotomy y.toNat z.toNat with hyz | hyz | hyz
          · simp [pyLe, hxy ▸ hyz]
          · simp only [pyLe, hxy, hyz, Nat.lt_irrefl, if_false] at h1 h2 ⊢
            exact ih h1 h2
          · simp [pyLe, hyz, Nat.lt_asymm hyz] at h2
        · simp [pyLe, hxy, Nat.lt_asymm hxy] at h1

instance : IsRefl Line pyLeProp := ⟨fun a => pyLe_refl a⟩

instance : IsTotal Line pyLeProp := ⟨fun a b => pyLe_total a b⟩

instance : IsTrans Line pyLeProp := ⟨fun _ _ _ h1 h2 => pyLe_trans h1 h2⟩

instance : IsAntisymm Line pyLeProp := ⟨fun _ _ h1 h2 => pyLe_antisymm h1 h2⟩

/-- `sorted_lines` sorts with respect to `pyLeProp`. -/
theorem sorted_lines_sorted (l : List Line) : List.Sorted pyLeProp (sorted_lines l) :=
  List.sorted_insertionSort pyLeProp l

/-- `sorted_lines` permutes its input. -/
theorem sorted_lines_perm (l : List Line) : (sorted_lines l).Perm l :=
  List.perm_insertionSort pyLeProp l

/-- Sorting an already sorted list changes nothing. -/
theorem sorted_lines_eq_of_sorted {l : List Line} (h : List.Sorted pyLeProp l) :
    sorted_lines l = l :=
  List.eq_of_perm_of_sorted (sorted_lines_perm l) (sorted_lines_sorted l) h

/-- Sorting identifies permutation-equivalent lists. -/
theorem sorted_lines_eq_of_perm {l1 l2 : List Line} (h : l1.Perm l2) :
    sorted_lines l1 = sorted_lines l2 :=
  List.eq_of_perm_of_sorted
    ((sorted_lines_perm l1).trans (h.trans (sorted_lines_perm l2).symm))
    (sorted_lines_sorted l1) (sorted_lines_sorted l2)

/-- `lstrip` over a leading whitespace character drops it. -/
theorem lstrip_cons_space {c : Char} (h : pyIsSpace c = true) (s : Line) :
    lstrip (c :: s) = lstrip s := by
  simp [lstrip, List.dropWhile, h]

/-- `lstrip` over a leading non-whitespace character keeps everything. -/
theorem lstrip_cons_of_not {c : Char} (h : pyIsSpace c = false) (s : Line) :
    lstrip (c :: s) = c :: s := by
  simp [lstrip, List.dropWhile, h]

/-- The first character surviving `lstrip` is not whitespace. -/
theorem lstrip_head {s t : Line} {a : Char} (h : lstrip s = a :: t) :
    pyIsSpace a = false := by
  induction s with
  | nil => simp [lstrip] at h
  | cons c cs ih =>
    cases hc : pyIsSpace c with
    | true => rw [lstrip_cons_space hc] at h; exact ih h
    | false => rw [lstrip_cons_of_not hc] at h; cases h; exact hc

/-- `lstrip` is idempotent. -/
theorem lstrip_idem (s : Line) : lstrip (lstrip s) = lstrip s := by
  cases h : lstrip s with
  | nil => rfl
  | cons a t => exact lstrip_cons_of_not (lstrip_head h) t

/-- `lstrip` through an append, when the first part is all whitespace. -/
theorem lstrip_append_of_nil {s : Line} (h : lstrip s = []) (t : Line) :
    lstrip (s ++ t) = lstrip t := by
  induction s with
  | nil => rfl
  | cons c cs ih =>
    cases hc : pyIsSpace c with
    | false => rw [lstrip_cons_of_not hc] at h; exact absurd h (by simp)
    | true =>
      rw [lstrip_cons_space hc] at h
      rw [List.cons_append, lstrip_cons_space hc]
      exact ih h

/-- `lstrip` through an append, when the first part keeps a character. -/
theorem lstrip_append_of_cons {s u : Line} {a : Char} (h : lstrip s = a :: u)
    (t : Line) : lstrip (s ++ t) = a :: (u ++ t) := by
  induction s with
  | nil => simp [lstrip] at h
  | cons c cs ih =>
    cases hc : pyIsSpace c with
    | false =>
      rw [lstrip_cons_of_not hc] at h
      cases h
      rw [List.cons_append, lstrip_cons_of_not hc]
    | true =>
      rw [lstrip_cons_space hc] at h
      rw [List.cons_append, lstrip_cons_space hc]
      exact ih h

/-- The prefix removed by `lstrip` plus its result reassemble the string. -/
theorem takeWhile_append_lstrip (s : Line) :
    s.takeWhile pyIsSpace ++ lstrip s = s := by
  unfold lstrip
  exact List.takeWhile_append_dropWhile pyIsSpace s

/-- Characters in the removed prefix are whitespace. -/
theorem mem_takeWhile_space {s : Line} {c : Char}
    (h : c ∈ s.takeWhile pyIsSpace) : pyIsSpace c = true :=
  List.mem_takeWhile_imp h

/-- `rstrip` only removes a (whitespace-only) suffix. -/
theorem rstrip_decomp (s : Line) :
    ∃ w, s = rstrip s ++ w ∧ ∀ c ∈ w, pyIsSpace c = true := by
  refine ⟨(s.reverse.takeWhile pyIsSpace).reverse, ?_, ?_⟩
  · symm
    show (lstrip s.reverse).reverse ++ _ = s
    rw [← List.reverse_append, takeWhile_append_lstrip, List.reverse_reverse]
  · intro c hc
    exact mem_takeWhile_space (List.mem_reverse.mp hc)

/-- A nonempty `rstrip` result starts where the string starts. -/
theorem rstrip_head {s u : Line} {a : Char} (h : rstrip s = a :: u) :
    ∃ v, s = a :: v := by
  obtain ⟨w, hw, _⟩ := rstrip_decomp s
  exact ⟨u ++ w, by rw [hw, h]; rfl⟩

/-- The last character surviving `rstrip` is not whitespace. -/
theorem rstrip_last {s t : Line} {a : Char} (h : rstrip s = t ++ [a]) :
    pyIsSpace a = false := by
  have hrev : lstrip s.reverse = a :: t.reverse := by
    have h2 := congrArg List.reverse h
    rw [show (rstrip s).reverse = lstrip s.reverse from by
          simp [rstrip, List.reverse_reverse]] at h2
    simpa using h2
  exact lstrip_head hrev

/-- `rstrip` is idempotent. -/
theorem rstrip_idem (s : Line) : rstrip (rstrip s) = rstrip s := by
  simp [rstrip, List.reverse_reverse, lstrip_idem]

/-- `rstrip` absorbs an appended whitespace character. -/
theorem rstrip_append_space {s : Line} {c : Char} (hc : pyIsSpace c = true) :
    rstrip (s ++ [c]) = rstrip s := by
  show (lstrip (s ++ [c]).reverse).reverse = _
  have : (s ++ [c]).reverse = c :: s.reverse := by simp
  rw [this, lstrip_cons_space hc]
  rfl

/-- The head surviving `pyStrip` is not whitespace. -/
theorem pyStrip_head {s t : Line} {a : Char} (h : pyStrip s = a :: t) :
    pyIsSpace a = false := by
  obtain ⟨v, hv⟩ := rstrip_head (h : rstrip (lstrip s) = a :: t)
  exact lstrip_head hv

/-- The last character surviving `pyStrip` is not whitespace. -/
theorem pyStrip_last {s t : Line} {a : Char} (h : pyStrip s = t ++ [a]) :
    pyIsSpace a = false :=
  rstrip_last h

/-- `pyStrip` is idempotent. -/
theorem pyStrip_idem (s : Line) : pyStrip (pyStrip s) = pyStrip s := by
  show rstrip (lstrip (rstrip (lstrip s))) = rstrip (lstrip s)
  have h1 : lstrip (rstrip (lstrip s)) = rstrip (lstrip s) := by
    cases h : rstrip (lstrip s) with
    | nil => rfl
    | cons a u =>
      obtain ⟨v, hv⟩ := rstrip_head h
      exact lstrip_cons_of_not (lstrip_head hv) u
  rw [h1, rstrip_idem]

/-- `pyStrip` removes a whitespace-only prefix and suffix, keeping the middle
intact. -/
theorem pyStrip_decomp (s : Line) :
    ∃ p q, s = p ++ (pyStrip s ++ q) ∧ (∀ c ∈ p, pyIsSpace c = true) ∧
      ∀ c ∈ q, pyIsSpace c = true := by
  obtain ⟨w, hw, hws⟩ := rstrip_decomp (lstrip s)
  refine ⟨s.takeWhile pyIsSpace, w, ?_, fun c hc => mem_takeWhile_space hc, hws⟩
  conv_lhs => rw [← takeWhile_append_lstrip s]
  rw [show lstrip s = pyStrip s ++ w from hw]

/-- Every character of `pyStrip s` is a character of `s`. -/
theorem mem_pyStrip {s : Line} {c : Char} (h : c ∈ pyStrip s) : c ∈ s := by
  obtain ⟨p, q, hs, _, _⟩ := pyStrip_decomp s
  rw [hs]
  simp [h]

/-- `pyStrip` absorbs an appended whitespace character. -/
theorem pyStrip_append_space {s : Line} {c : Char} (hc : pyIsSpace c = true) :
    pyStrip (s ++ [c]) = pyStrip s := by
  cases h : lstrip s with
  | nil =>
    show rstrip (lstrip (s ++ [c])) = rstrip (lstrip s)
    rw [lstrip_append_of_nil h, h, show lstrip [c] = ([] : Line) from by
      simp [lstrip, List.dropWhile, hc]]
  | cons a u =>
    show rstrip (lstrip (s ++ [c])) = rstrip (lstrip s)
    rw [lstrip_append_of_cons h, h, show a :: (u ++ [c]) = (a :: u) ++ [c] from rfl,
      rstrip_append_space hc]

/-- Why records can be modelled without their `'\n'` terminator: stripping a
terminated line equals stripping the bare line. -/
theorem pyStrip_append_newline (s : Line) : pyStrip (s ++ ['\n']) = pyStrip s :=
  pyStrip_append_space (by decide)

/-- Newline translation leaves no carriage return behind. -/
theorem translateNewlines_not_cr (s : Line) : '\r' ∉ translateNewlines s := by
  induction s using translateNewlines.induct with
  | case1 => simp [translateNewlines]
  | case2 => simp [translateNewlines]
  | case3 c hc =>
    simp only [translateNewlines, if_neg hc, List.mem_singleton]
    exact fun h => hc h.symm
  | case4 cs ih =>
    simp only [translateNewlines, if_pos rfl]
    intro hmem
    rcases List.mem_cons.mp hmem with h | h
    · exact absurd h (by decide)
    · exact ih h
  | case5 d cs hd ih =>
    simp only [translateNewlines, if_pos rfl, if_neg hd]
    intro hmem
    rcases List.mem_cons.mp hmem with h | h
    · exact absurd h (by decide)
    · exact ih h
  | case6 c d cs hc ih =>
    simp only [translateNewlines, if_neg hc]
    intro hmem
    rcases List.mem_cons.mp hmem with h | h
    · exact hc h.symm
    · exact ih h

/-- Newline translation is the identity on carriage-return-free text. -/
theorem translateNewlines_eq_self {s : Line} (h : '\r' ∉ s) :
    translateNewlines s = s := by
  induction s using translateNewlines.induct with
  | case1 => rfl
  | case2 => exact absurd (List.mem_singleton_self '\r') h
  | case3 c hc => simp [translateNewlines, hc]
  | case4 cs ih => exact absurd (List.mem_cons_self '\r' _) h
  | case5 d cs hd ih => exact absurd (List.mem_cons_self '\r' _) h
  | case6 c d cs hc ih =>
    have h2 : '\r' ∉ d :: cs := fun hm => h (List.mem_cons_of_mem c hm)
    simp only [translateNewlines, if_neg hc, ih h2]

/-- `splitRecords` after a leading newline: one empty record. -/
theorem splitRecords_cons_nl (cs : Line) :
    splitRecords ('\n' :: cs) = [] :: splitRecords cs := by
  simp [splitRecords]

/-- `splitRecords` after an ordinary character, when the tail has no record. -/
theorem splitRecords_cons_of_nil {c : Char} (hc : c ≠ '\n') {cs : Line}
    (h : splitRecords cs = []) : splitRecords (c :: cs) = [[c]] := by
  simp [splitRecords, hc, h]

/-- `splitRecords` after an ordinary character, prepending to the first
record. -/
theorem splitRecords_cons_of_cons {c : Char} (hc : c ≠ '\n') {cs : Line}
    {l : Line} {ls : List Line} (h : splitRecords cs = l :: ls) :
    splitRecords (c :: cs) = (c :: l) :: ls := by
  simp [splitRecords, hc, h]

/-- No record contains a newline. -/
theorem splitRecords_not_nl {s r : Line} (hr : r ∈ splitRecords s) :
    '\n' ∉ r := by
  induction s generalizing r with
  | nil => simp [splitRecords] at hr
  | cons c cs ih =>
    by_cases hc : c = '\n'
    · subst hc
      rw [splitRecords_cons_nl] at hr
      rcases List.mem_cons.mp hr with h | h
      · subst h; simp
      · exact ih h
    · cases hsc : splitRecords cs with
      | nil =>
        rw [splitRecords_cons_of_nil hc hsc, List.mem_singleton] at hr
        subst hr
        simpa using fun h => hc h.symm
      | cons l ls =>
        rw [splitRecords_cons_of_cons hc hsc] at hr
        rcases List.mem_cons.mp hr with h | h
        · subst h
          intro hmem
          rcases List.mem_cons.mp hmem with h2 | h2
          · exact hc h2.symm
          · exact ih (hsc ▸ List.mem_cons_self l ls) h2
        · exact ih (hsc ▸ List.mem_cons_of_mem l h)

/-- Every character of a record is a character of the split text. -/
theorem splitRecords_subset {s r : Line} (hr : r ∈ splitRecords s) :
    ∀ c ∈ r, c ∈ s := by
  induction s generalizing r with
  | nil => simp [splitRecords] at hr
  | cons c cs ih =>
    by_cases hc : c = '\n'
    · subst hc
      rw [splitRecords_cons_nl] at hr
      rcases List.mem_cons.mp hr with h | h
      · subst h; simp
      · exact fun x hx => List.mem_cons_of_mem _ (ih h x hx)
    · cases hsc : splitRecords cs with
      | nil =>
        rw [splitRecords_cons_of_nil hc hsc, List.mem_singleton] at hr
        subst hr
        simp
      | cons l ls =>
        rw [splitRecords_cons_of_cons hc hsc] at hr
        rcases List.mem_cons.mp hr with h | h
        · subst h
          intro x hx
          rcases List.mem_cons.mp hx with h2 | h2
          · exact h2 ▸ List.mem_cons_self c cs
          · exact List.mem_cons_of_mem _
              (ih (hsc ▸ List.mem_cons_self l ls) x h2)
        · exact fun x hx => List.mem_cons_of_mem _
            (ih (hsc ▸ List.mem_cons_of_mem l h) x hx)

/-- Splitting a rendered line plus the rest of the stream. -/
theorem splitRecords_append_line {l : Line} (hl : '\n' ∉ l) (rest : Line) :
    splitRecords (l ++ '\n' :: rest) = l :: splitRecords rest := by
  induction l with
  | nil => exact splitRecords_cons_nl rest
  | cons c l' ih =>
    have hc : c ≠ '\n' := fun h => hl (h ▸ List.mem_cons_self c l')
    have hl' : '\n' ∉ l' := fun h => hl (List.mem_cons_of_mem c h)
    rw [List.cons_append, splitRecords_cons_of_cons hc (ih hl')]

/-- Splitting rendered output recovers exactly the rendered lines. -/
theorem splitRecords_renderLines {ls : List Line} (h : ∀ l ∈ ls, '\n' ∉ l) :
    splitRecords (renderLines ls) = ls := by
  induction ls with
  | nil => rfl
  | cons l ls' ih =>
    have hr : renderLines (l :: ls') = l ++ '\n' :: renderLines ls' := by
      simp [renderLines]
    rw [hr, splitRecords_append_line (h l (List.mem_cons_self l ls')),
      ih (fun x hx => h x (List.mem_cons_of_mem l hx))]

/-- Characters of rendered output: a newline or a character of some line. -/
theorem mem_renderLines {c : Char} {ls : List Line} (h : c ∈ renderLines ls) :
    c = '\n' ∨ ∃ l ∈ ls, c ∈ l := by
  induction ls with
  | nil => simp [renderLines] at h
  | cons l ls' ih =>
    have hr : renderLines (l :: ls') = l ++ '\n' :: renderLines ls' := by
      simp [renderLines]
    rw [hr, List.mem_append, List.mem_cons] at h
    rcases h with h | h | h
    · exact Or.inr ⟨l, List.mem_cons_self l ls', h⟩
    · exact Or.inl h
    · rcases ih h with h2 | ⟨x, hx, hcx⟩
      · exact Or.inl h2
      · exact Or.inr ⟨x, List.mem_cons_of_mem l hx, hcx⟩

/-- Membership in the unique-line set: exactly the non-empty stripped
records. -/
theorem mem_unique_lines {records : List Line} {l : Line} :
    l ∈ unique_lines records ↔ (∃ r ∈ records, pyStrip r = l) ∧ l ≠ [] := by
  unfold unique_lines
  rw [List.mem_dedup, List.mem_filter]
  simp [List.mem_map, List.isEmpty_iff, and_comm]

/-- The unique-line set has no duplicates. -/
theorem nodup_unique_lines (records : List Line) : (unique_lines records).Nodup :=
  List.nodup_dedup _

/-- The processed record list has no duplicates. -/
theorem processRecords_nodup (records : List Line) :
    (processRecords records).Nodup :=
  (sorted_lines_perm (unique_lines records)).symm.nodup
    (nodup_unique_lines records)

/-- The processed record list is sorted. -/
theorem processRecords_sorted (records : List Line) :
    List.Sorted pyLeProp (processRecords records) :=
  sorted_lines_sorted _

/-- Membership in the processed record list. -/
theorem mem_processRecords {records : List Line} {l : Line} :
    l ∈ processRecords records ↔ (∃ r ∈ records, pyStrip r = l) ∧ l ≠ [] := by
  rw [processRecords, (sorted_lines_perm (unique_lines records)).mem_iff]
  exact mem_unique_lines

/-- Processing is invariant under permuting the records. -/
theorem processRecords_perm_inv {r1 r2 : List Line} (h : r1.Perm r2) :
    processRecords r1 = processRecords r2 := by
  unfold processRecords unique_lines
  exact sorted_lines_eq_of_perm (((h.map pyStrip).filter (fun l => !l.isEmpty)).dedup)

/-- A record list that is already stripped, non-empty, duplicate-free and
sorted passes through the pipeline unchanged. -/
theorem processRecords_fixpoint {ls : List Line} (hnd : ls.Nodup)
    (hsorted : List.Sorted pyLeProp ls) (hstrip : ∀ l ∈ ls, pyStrip l = l)
    (hne : ∀ l ∈ ls, l ≠ []) : processRecords ls = ls := by
  unfold processRecords unique_lines
  have hmap : ls.map pyStrip = ls :=
    (List.map_congr_left hstrip).trans (List.map_id ls)
  rw [hmap, List.filter_eq_self.mpr
      (fun a ha => by simpa [List.isEmpty_iff] using hne a ha),
    List.dedup_eq_self.mpr hnd]
  exact sorted_lines_eq_of_sorted hsorted

/-- Each output line of a run is stripped, non-empty, and free of newline and
carriage-return characters. -/
theorem processContent_mem {content l : Line} (h : l ∈ processContent content) :
    pyStrip l = l ∧ l ≠ [] ∧ '\n' ∉ l ∧ '\r' ∉ l := by
  rw [processContent, mem_processRecords] at h
  obtain ⟨⟨r, hr, hrl⟩, hne⟩ := h
  have hnl : '\n' ∉ l := fun hm =>
    splitRecords_not_nl hr (mem_pyStrip (hrl ▸ hm))
  have hcr : '\r' ∉ l := fun hm =>
    translateNewlines_not_cr content
      (splitRecords_subset hr '\r' (mem_pyStrip (hrl ▸ hm)))
  exact ⟨hrl ▸ pyStrip_idem r, hne, hnl, hcr⟩

/-- Rendered output of a run contains no carriage return. -/
theorem renderLines_not_cr (content : Line) :
    '\r' ∉ renderLines (processContent content) := by
  intro hm
  rcases mem_renderLines hm with h | ⟨l, hl, hcl⟩
  · exact absurd h (by decide)
  · exact (processContent_mem hl).2.2.2 hcl

/-- Re-processing a run's rendered output reproduces the run's line list:
output lines are already trimmed, non-empty, unique and sorted. -/
theorem processContent_render_fixpoint (content : Line) :
    processContent (renderLines (processContent content)) =
      processContent content := by
  rw [processContent, translateNewlines_eq_self (renderLines_not_cr content),
    splitRecords_renderLines (fun l hl => (processContent_mem hl).2.2.1)]
  exact processRecords_fixpoint (processRecords_nodup _) (processRecords_sorted _)
    (fun l hl => (processContent_mem hl).1) (fun l hl => (processContent_mem hl).2.1)

/-- Walking a rendered line: no doubled newline appears while crossing
`l ++ '\n' :: rest` when `l` is newline-free and none follows the separator. -/
theorem hasDoubleNewline_append_line {l rest : Line} (hl : '\n' ∉ l)
    (hrest : hasDoubleNewline ('\n' :: rest) = false) :
    hasDoubleNewline (l ++ '\n' :: rest) = false := by
  induction l with
  | nil => exact hrest
  | cons c l' ih =>
    have hc : c ≠ '\n' := fun h => hl (h ▸ List.mem_cons_self c l')
    have hl' : '\n' ∉ l' := fun h => hl (List.mem_cons_of_mem c h)
    cases l' with
    | nil =>
      simp only [List.nil_append, List.cons_append, hasDoubleNewline]
      simp [hc, hrest]
    | cons d l'' =>
      have hd : d ≠ '\n' := fun h => hl' (h ▸ List.mem_cons_self d l'')
      have ht := ih hl'
      simp only [List.cons_append, hasDoubleNewline, List.append_eq] at ht ⊢
      simp [hc, hd, ht]

/-- After a separator, rendering well-formed lines never doubles a newline. -/
theorem hasDoubleNewline_nl_renderLines {ls : List Line}
    (hne : ∀ l ∈ ls, l ≠ []) (hnl : ∀ l ∈ ls, '\n' ∉ l) :
    hasDoubleNewline ('\n' :: renderLines ls) = false := by
  induction ls with
  | nil => rfl
  | cons l ls' ih =>
    have hr : renderLines (l :: ls') = l ++ '\n' :: renderLines ls' := by
      simp [renderLines]
    have ihl := ih (fun x hx => hne x (List.mem_cons_of_mem l hx))
      (fun x hx => hnl x (List.mem_cons_of_mem l hx))
    have htail : hasDoubleNewline (l ++ '\n' :: renderLines ls') = false :=
      hasDoubleNewline_append_line (hnl l (List.mem_cons_self l ls')) ihl
    rw [hr]
    cases hcase : l with
    | nil => exact absurd hcase (hne l (List.mem_cons_self l ls'))
    | cons c l'' =>
      have hc : c ≠ '\n' := fun h =>
        hnl l (List.mem_cons_self l ls') (hcase ▸ h ▸ List.mem_cons_self c l'')
      rw [hcase] at htail
      simp only [List.cons_append, hasDoubleNewline, List.append_eq] at htail ⊢
      simp [hc, htail]

/-- Rendering well-formed lines never produces a blank line. -/
theorem hasDoubleNewline_renderLines {ls : List Line}
    (hne : ∀ l ∈ ls, l ≠ []) (hnl : ∀ l ∈ ls, '\n' ∉ l) :
    hasDoubleNewline (renderLines ls) = false := by
  cases ls with
  | nil => rfl
  | cons l ls' =>
    have hr : renderLines (l :: ls') = l ++ '\n' :: renderLines ls' := by
      simp [renderLines]
    rw [hr]
    exact hasDoubleNewline_append_line (hnl l (List.mem_cons_self l ls'))
      (hasDoubleNewline_nl_renderLines
        (fun x hx => hne x (List.mem_cons_of_mem l hx))
        (fun x hx => hnl x (List.mem_cons_of_mem l hx)))

/-- Rendered output holds one `'\n'` per line written. -/
theorem count_nl_renderLines {ls : List Line} (h : ∀ l ∈ ls, '\n' ∉ l) :
    (renderLines ls).count '\n' = ls.length := by
  induction ls with
  | nil => rfl
  | cons l ls' ih =>
    rw [show renderLines (l :: ls') = l ++ '\n' :: renderLines ls' from by
      simp [renderLines]]
    rw [List.count_append, List.count_cons_self,
      List.count_eq_zero.mpr (h l (List.mem_cons_self l ls')),
      ih (fun x hx => h x (List.mem_cons_of_mem l hx))]
    simp [List.length_cons, Nat.add_comm]

/-- Reading back a freshly written file. -/
theorem readFile_writeFile (fs : FileSys) (p : FsPath) (c : Line) :
    readFile (writeFile fs p c) p = some c := by
  simp [readFile, writeFile]

/-- The trimming character set the specification names: space, tab, newline,
carriage return, form feed, vertical tab. -/
def claimIsSpace (c : Char) : Bool :=
  c = ' ' || c = '\t' || c = '\n' || c = '\r' || c = '\x0c' || c = '\x0b'

/-- Every character of the specification's six-character set is stripped. -/
theorem claimIsSpace_subset (c : Char) (h : claimIsSpace c = true) :
    pyIsSpace c = true := by
  simp only [claimIsSpace, Bool.or_eq_true, decide_eq_true_eq] at h
  rcases h with ((((rfl | rfl) | rfl) | rfl) | rfl) | rfl <;> decide

/-- C1: for every input, the output line list has no duplicate (each line
appears exactly once), every output line is non-empty, and every input record
whose trimmed form is non-empty appears, in trimmed form, in the output. -/
theorem c1_dedup_correct (content : Line) :
    (processContent content).Nodup ∧
    (∀ l ∈ processContent content, l ≠ []) ∧
    ∀ r ∈ splitRecords (translateNewlines content),
      pyStrip r ≠ [] → pyStrip r ∈ processContent content := by
  refine ⟨processRecords_nodup _, fun l hl => (processContent_mem hl).2.1, ?_⟩
  intro r hr hne
  rw [processContent, mem_processRecords]
  exact ⟨⟨r, hr, rfl⟩, hne⟩

/-- C2: for every input, the output line sequence is non-decreasing under
code-point ordinal comparison (`pyLe`). -/
theorem c2_sort_order (content : Line) :
    List.Sorted pyLeProp (processContent content) :=
  processRecords_sorted _

/-- C3: no record trimming to the empty string ever appears in the output;
if every record trims to empty, the output file content is empty and the
reported line count is 0. -/
theorem c3_empty_line_exclusion (content : Line) :
    [] ∉ processContent content ∧
    ((∀ r ∈ splitRecords (translateNewlines content), pyStrip r = []) →
      renderLines (processContent content) = [] ∧
        (processContent content).length = 0) := by
  constructor
  · intro h
    exact (processContent_mem h).2.1 rfl
  · intro hall
    have hempty : processContent content = [] := by
      rw [List.eq_nil_iff_forall_not_mem]
      intro l hl
      rw [processContent, mem_processRecords] at hl
      obtain ⟨⟨r, hr, hrl⟩, hne⟩ := hl
      exact hne (hrl ▸ hall r hr)
    rw [hempty]
    exact ⟨rfl, rfl⟩

/-- C4 (Scenario A): on an input file holding the raw lines
`["b", "a", "b", "", "  a  ", "c"]`, the run writes an output file whose
content is exactly `"a\nb\nc\n"` and reports 3 lines written. -/
theorem c4_scenario_a :
    deduplicate_file none [("in.txt".toList, "b\na\nb\n\n  a  \nc\n".toList)]
      "in.txt".toList "out.txt".toList =
      ([("out.txt".toList, "a\nb\nc\n".toList),
        ("in.txt".toList, "b\na\nb\n\n  a  \nc\n".toList)],
        Msg.success 3 "out.txt".toList) := by
  decide

/-- C5 counterexample: the claim says only the six characters of
`claimIsSpace` are ever trimmed, but the code also trims U+00A0 (no-break
space): stripping `" a"` yields `"a"` although U+00A0 is outside the
claimed set. -/
theorem c5_counterexample :
    pyStrip [Char.ofNat 0xA0, 'a'] = ['a'] ∧
    claimIsSpace (Char.ofNat 0xA0) = false := by
  decide

/-- C5 (amended): trimming removes leading and trailing characters exactly
from Python's whitespace set `pyIsSpace` — a superset of the six characters
the claim lists that also holds the other Unicode whitespace code points —
and removes no interior character: the string decomposes as whitespace
prefix ++ trimmed result ++ whitespace suffix, and the trimmed result starts
and ends with non-whitespace. -/
theorem c5_amended_trim (s : Line) :
    ∃ p q, s = p ++ (pyStrip s ++ q) ∧
      (∀ c ∈ p, pyIsSpace c = true) ∧ (∀ c ∈ q, pyIsSpace c = true) ∧
      (∀ a t, pyStrip s = a :: t → pyIsSpace a = false) ∧
      (∀ a t, pyStrip s = t ++ [a] → pyIsSpace a = false) ∧
      ∀ c, claimIsSpace c = true → pyIsSpace c = true := by
  obtain ⟨p, q, hs, hp, hq⟩ := pyStrip_decomp s
  exact ⟨p, q, hs, hp, hq, fun a t h => pyStrip_head h,
    fun a t h => pyStrip_last h, claimIsSpace_subset⟩

/-- C6: when the input path does not exist, the run reports `Msg.notFound`
naming the missing path, raises nothing, and returns the file system
unchanged — no output file is created and an existing file at the output
path keeps its content. -/
theorem c6_not_found (fault : Option Fault) (fs : FileSys)
    (input_path output_path : FsPath) (h : readFile fs input_path = none) :
    deduplicate_file fault fs input_path output_path =
      (fs, Msg.notFound input_path) := by
  unfold deduplicate_file
  rw [h]

/-- C6 witness: a concrete missing input path. -/
theorem c6_not_found_witness :
    deduplicate_file none [("out.txt".toList, "old".toList)]
      "missing.txt".toList "out.txt".toList =
      ([("out.txt".toList, "old".toList)], Msg.notFound "missing.txt".toList) :=
  c6_not_found none [("out.txt".toList, "old".toList)]
    "missing.txt".toList "out.txt".toList (by decide)

/-- C7: a successful run overwrites the output path with each sorted line
followed by exactly one newline — one `'\n'` per line written and never two
consecutive newlines (no trailing blank line) — and reports the count of
lines written; empty input yields empty output content and count 0. -/
theorem c7_write_format (fs : FileSys) (input_path output_path : FsPath)
    (content : Line) (h : readFile fs input_path = some content) :
    deduplicate_file none fs input_path output_path =
      (writeFile fs output_path (renderLines (processContent content)),
        Msg.success (processContent content).length output_path) ∧
    (renderLines (processContent content)).count '\n' =
      (processContent content).length ∧
    hasDoubleNewline (renderLines (processContent content)) = false ∧
    (content = [] → processContent content = [] ∧
      renderLines (processContent content) = []) := by
  refine ⟨?_, count_nl_renderLines (fun l hl => (processContent_mem hl).2.2.1),
    hasDoubleNewline_renderLines (fun l hl => (processContent_mem hl).2.1)
      (fun l hl => (processContent_mem hl).2.2.1), ?_⟩
  · unfold deduplicate_file
    rw [h]
  · rintro rfl
    exact ⟨rfl, rfl⟩

/-- C7 witness: a concrete empty input file. -/
theorem c7_write_format_witness :
    deduplicate_file none [("in.txt".toList, [])]
      "in.txt".toList "out.txt".toList =
      (writeFile [("in.txt".toList, [])] "out.txt".toList [],
        Msg.success 0 "out.txt".toList) :=
  (c7_write_format [("in.txt".toList, [])] "in.txt".toList "out.txt".toList
    [] (by decide)).1

/-- C8: the process exits with code 1 iff the argument count is wrong, in
which case it prints the usage message; with the right count it exits with
code 0 whatever handled fault occurs inside the run. -/
theorem c8_exit_codes (fault : Option Fault) (fs : FileSys)
    (argv : List FsPath) :
    ((python_main fault fs argv).2.2 = 1 ↔ argv.length ≠ 3) ∧
    (argv.length ≠ 3 → python_main fault fs argv = (fs, Msg.usage, 1)) ∧
    (argv.length = 3 → (python_main fault fs argv).2.2 = 0) := by
  match argv with
  | [] => simp [python_main]
  | [a] => simp [python_main]
  | [a, b] => simp [python_main]
  | [a, b, c] => simp [python_main]
  | a :: b :: c :: d :: rest => simp [python_main]

/-- C9: the output content depends only on the multiset of input records —
permuting the records leaves the rendered output byte-for-byte identical. -/
theorem c9_permutation_invariant {records1 records2 : List Line}
    (h : records1.Perm records2) :
    renderLines (processRecords records1) =
      renderLines (processRecords records2) :=
  congrArg renderLines (processRecords_perm_inv h)

/-- C9 witness: a concrete two-record swap. -/
theorem c9_permutation_invariant_witness :
    renderLines (processRecords [['b'], ['a']]) =
      renderLines (processRecords [['a'], ['b']]) :=
  c9_permutation_invariant (List.Perm.swap ['a'] ['b'] [])

/-- C10: the run is a fixed point on its own output — feeding the first
run's output file to a second run writes byte-for-byte the same content. -/
theorem c10_idempotent (fs : FileSys) (p1 p2 p3 : FsPath) (content : Line)
    (h : readFile fs p1 = some content) :
    readFile (deduplicate_file none
        (deduplicate_file none fs p1 p2).1 p2 p3).1 p3 =
      readFile (deduplicate_file none fs p1 p2).1 p2 := by
  have h1 : deduplicate_file none fs p1 p2 =
      (writeFile fs p2 (renderLines (processContent content)),
        Msg.success (processContent content).length p2) := by
    unfold deduplicate_file
    rw [h]
  rw [h1]
  have h2 : readFile (writeFile fs p2 (renderLines (processContent content)))
      p2 = some (renderLines (processContent content)) :=
    readFile_writeFile _ _ _
  show readFile (deduplicate_file none
      (writeFile fs p2 (renderLines (processContent content))) p2 p3).1 p3 = _
  unfold deduplicate_file
  rw [h2]
  show readFile (writeFile _ p3
    (renderLines (processContent (renderLines (processContent content))))) p3 = _
  rw [readFile_writeFile, processContent_render_fixpoint]

/-- C10 witness: a concrete run chained into itself. -/
theorem c10_idempotent_witness :
    readFile (deduplicate_file none
        (deduplicate_file none [("in.txt".toList, "b\na\n".toList)]
          "in.txt".toList "o1.txt".toList).1 "o1.txt".toList
        "o2.txt".toList).1 "o2.txt".toList =
      readFile (deduplicate_file none [("in.txt".toList, "b\na\n".toList)]
        "in.txt".toList "o1.txt".toList).1 "o1.txt".toList :=
  c10_idempotent [("in.txt".toList, "b\na\n".toList)] "in.txt".toList
    "o1.txt".toList "o2.txt".toList "b\na\n".toList (by decide)
